import Mathlib

/-!
Verification of the Trading Performance Analytics Engine
(`Sharpe_Ratio_Heatmap_Generator.js`).

The engine is embedded shallowly: machine floating-point numbers are
modelled by exact rationals (`ℚ`); JavaScript `NaN`/`Infinity` outcomes are
modelled explicitly by the `JsNum` type at the points where the source can
produce them (the sentinel `Infinity` branches and the final
`isNaN`/`isFinite` normalizations); `Math.sqrt` and `Math.pow`, which have
no exact rational counterpart, are passed in as function parameters so that
theorems quantify over every possible finite result.  Dynamic JavaScript
records (trades with arbitrary column names) are modelled as association
lists from column name to the already-parsed numeric value.
-/

namespace TVQB

/-- A trade record: parsed timestamp in milliseconds (`parsedDate.getTime()`)
and the dynamic columns holding already-parsed numeric values. -/
structure Trade where
  ts : Int
  cols : List (String × ℚ)
deriving DecidableEq, Repr

/-- `trade[c]` followed by the source's lenient numeric parse:
a missing column reads as 0 (`String(trade[c] || '0')`). -/
def colVal (t : Trade) (c : String) : ℚ :=
  match t.cols.find? (fun p => p.1 == c) with
  | some p => p.2
  | none => 0

/-- The calendar-day key of a timestamp: `toISOString().split('T')[0]`
is the UTC day, i.e. the floor of the timestamp over 86400000 ms. -/
def dateKey (ts : Int) : Int := Int.fdiv ts 86400000

/-- `positionSizeType`: 'fixed' or 'percentage'. -/
inductive SizeType
  | fixed
  | percentage
deriving DecidableEq, Repr

/-- The engine configuration fields used by the modelled computations. -/
structure Config where
  initialCapital : ℚ
  commissionRate : ℚ
  positionSizeType : SizeType
  positionSize : ℚ
  binSizeInStdDev : ℚ
deriving DecidableEq, Repr

/-- `calculatePositionSize` (source lines 349-355). -/
def calculatePositionSize (cfg : Config) (currentEquity : ℚ) : ℚ :=
  match cfg.positionSizeType with
  | .fixed => cfg.positionSize
  | .percentage => currentEquity * (cfg.positionSize / 100)

/-- Case-insensitive lowering of a string, as `toLowerCase` on ASCII keys. -/
def lowerStr (s : String) : String := String.mk (s.data.map Char.toLower)

/-- Substring containment on character lists (JavaScript `includes`). -/
def listContainsSub (needle : List Char) : List Char → Bool
  | [] => needle.isEmpty
  | c :: t => List.isPrefixOf needle (c :: t) || listContainsSub needle t

/-- JavaScript `hay.includes(needle)`. -/
def strContains (hay needle : String) : Bool :=
  listContainsSub needle.data hay.data

/-- The P&L column keywords of the auto-detection (source lines 491-494). -/
def pnlKeywords : List String :=
  ["p&l", "pnl", "profit", "return", "損益", "獲利", "盈虧", "pl", "net", "realized"]

/-- The P&L column auto-detection (source lines 490-499): filter the trade's
keys by keyword, prefer a column mentioning USD/USDT or without a percent
sign, fall back to the first candidate; `none` models the thrown error when
no candidate exists. -/
def detectPnlColumn (t : Trade) : Option String :=
  let keys := t.cols.map Prod.fst
  let pnlColumns := keys.filter
    (fun k => pnlKeywords.any (fun kw => strContains (lowerStr k) (lowerStr kw)))
  match pnlColumns with
  | [] => none
  | c0 :: _ =>
    some ((pnlColumns.find? (fun col =>
      strContains col "USD" || strContains col "USDT" || !(strContains col "%"))).getD c0)

/-- The per-trade cash-flow conversion of `buildDailySeries`
(source lines 503-519): stake, gross P&L, commission, net P&L, new equity. -/
structure TradeEffect where
  stake : ℚ
  gross : ℚ
  commission : ℚ
  net : ℚ
  newEquity : ℚ
deriving DecidableEq, Repr

/-- One trade of the `buildDailySeries` loop body (source lines 503-519):
a nonzero percentage P&L takes precedence and applies to the stake; the
raw dollar P&L is used only for fixed sizing; commission is
`positionSize * commissionRate * 2`. -/
def tradeStep (cfg : Config) (pnlCol : String) (equity : ℚ) (t : Trade) : TradeEffect :=
  let positionSize := calculatePositionSize cfg equity
  let tvPnLUSD := colVal t pnlCol
  let tvPnLPercent := colVal t "P&L %"
  let actualPnL :=
    if tvPnLPercent ≠ 0 then positionSize * (tvPnLPercent / 100)
    else if cfg.positionSizeType = .fixed then tvPnLUSD
    else 0
  let commission := positionSize * cfg.commissionRate * 2
  { stake := positionSize
    gross := actualPnL
    commission := commission
    net := actualPnL - commission
    newEquity := equity + (actualPnL - commission) }

/-- The per-day accumulator record held in the `dailyMap` of
`buildDailySeries` (source lines 520-534). -/
structure DayRec where
  date : Int
  startEquity : ℚ
  endEquity : ℚ
  dailyPnL : ℚ
  tradeCount : Nat
deriving DecidableEq, Repr

/-- Update the record whose `date` matches `key` (the `dailyMap` holds at
most one): set `endEquity`, add to `dailyPnL`, bump `tradeCount`
(source lines 529-534). -/
def updateDay (key : Int) (net newEq : ℚ) : List DayRec → List DayRec
  | [] => []
  | r :: rs =>
    if r.date = key then
      { r with endEquity := newEq, dailyPnL := r.dailyPnL + net,
               tradeCount := r.tradeCount + 1 } :: rs
    else r :: updateDay key net newEq rs

/-- `dailyMap.has(dateKey)` over the accumulated records. -/
def hasDay (key : Int) (rs : List DayRec) : Bool :=
  rs.any (fun r => r.date == key)

/-- The loop of `buildDailySeries` (source lines 488-535), with the
instance state `this.detectedPnlColumn` made explicit.  The map-with-order
pair of the source is modelled by a single record list kept newest-first
(reversed insertion order).  `none` models the error thrown when the first
trade exposes no P&L column. -/
def buildLoop (cfg : Config) :
    List Trade → Option String → ℚ → List DayRec →
      Option (Option String × ℚ × List DayRec)
  | [], col, eq, recs => some (col, eq, recs)
  | t :: ts, col, eq, recs =>
    match (match col with
           | some c => some c
           | none => detectPnlColumn t) with
    | none => none
    | some c =>
      let step := tradeStep cfg c eq t
      let key := dateKey t.ts
      let recs' :=
        if hasDay key recs then updateDay key step.net step.newEquity recs
        else { date := key, startEquity := eq, endEquity := step.newEquity,
               dailyPnL := step.net, tradeCount := 1 } :: recs
      buildLoop cfg ts (some c) step.newEquity recs'

/-- A finished `DailyRecord` (source lines 536-547). -/
structure DailyRecord where
  date : Int
  startEquity : ℚ
  endEquity : ℚ
  dailyPnL : ℚ
  tradeCount : Nat
  dailyReturnPct : ℚ
deriving DecidableEq, Repr, Inhabited

/-- The closing `map` of `buildDailySeries` (source lines 536-547): attach
`dailyReturnPct`, guarding the division by a nonpositive `startEquity`. -/
def finishRecord (r : DayRec) : DailyRecord :=
  { date := r.date, startEquity := r.startEquity, endEquity := r.endEquity,
    dailyPnL := r.dailyPnL, tradeCount := r.tradeCount,
    dailyReturnPct :=
      if r.startEquity > 0 then (r.endEquity - r.startEquity) / r.startEquity
      else 0 }

/-- The result record of `buildDailySeries` (source lines 550-557). -/
structure DailySeries where
  dailyRecords : List DailyRecord
  dailyReturnPctSeries : List ℚ
  dailyReturnUSDSeries : List ℚ
  totalTrades : Nat
  totalDays : Nat
  finalEquity : ℚ
deriving DecidableEq, Repr

/-- `buildDailySeries` (source lines 474-558).  Besides the series it
returns the updated `detectedPnlColumn` state; `none` models the thrown
error. -/
def buildDailySeries (cfg : Config) (col0 : Option String) (trades : List Trade) :
    Option (DailySeries × Option String) :=
  match trades with
  | [] =>
    some ({ dailyRecords := [], dailyReturnPctSeries := [],
            dailyReturnUSDSeries := [], totalTrades := 0, totalDays := 0,
            finalEquity := cfg.initialCapital }, col0)
  | _ :: _ =>
    match buildLoop cfg trades col0 cfg.initialCapital [] with
    | none => none
    | some (col, _, revRecs) =>
      let dailyRecords := revRecs.reverse.map finishRecord
      some ({ dailyRecords := dailyRecords,
              dailyReturnPctSeries := dailyRecords.map (fun r => r.dailyReturnPct),
              dailyReturnUSDSeries := dailyRecords.map (fun r => r.dailyPnL),
              totalTrades := trades.length,
              totalDays := dailyRecords.length,
              finalEquity :=
                match dailyRecords.getLast? with
                | some r => r.endEquity
                | none => cfg.initialCapital }, col)

/-- A JavaScript number outcome: a finite (exact) value, an infinity, or
NaN.  Finite arithmetic is carried out in `ℚ`; the constructors beyond
`fin` appear exactly where the source writes an `Infinity` sentinel or
normalizes with `isNaN`/`isFinite`. -/
inductive JsNum
  | fin (q : ℚ)
  | posInf
  | negInf
  | nan
deriving DecidableEq, Repr

/-- JavaScript `isNaN`. -/
def JsNum.isNaN : JsNum → Bool
  | .nan => true
  | _ => false

/-- JavaScript `isFinite`. -/
def JsNum.isFinite : JsNum → Bool
  | .fin _ => true
  | _ => false

/-- The `isNaN(x) ? 0 : x` normalization of the emitted record. -/
def jsIsNaNClamp (x : JsNum) : JsNum := if x.isNaN then .fin 0 else x

/-- The `isFinite(x) ? x : 0` normalization of the emitted record. -/
def jsFiniteClamp (x : JsNum) : JsNum := if x.isFinite then x else .fin 0

/-- The single-scan maximum-drawdown fold of `calculatePeriodStats`
(source lines 605-611): running peak and running maximum drop. -/
def mddScan : List ℚ → ℚ → ℚ → ℚ × ℚ
  | [], peak, maxdd => (peak, maxdd)
  | e :: rest, peak, maxdd =>
    let peak' := if e > peak then e else peak
    let dd := peak' - e
    let maxdd' := if dd > maxdd then dd else maxdd
    mddScan rest peak' maxdd'

/-- The reported MDD of a daily equity series (source lines 605-613):
the scan starts with the first day's equity as the peak, and the final
drop is divided by the final value of the running peak. -/
def mddOfDaily : List ℚ → ℚ
  | [] => 0
  | e0 :: rest =>
    let scan := mddScan (e0 :: rest) e0 0
    if scan.1 > 0 then scan.2 / scan.1 * 100 else 0

/-- The emitted `PerformanceStats` record (source lines 632-645). -/
structure PerformanceStats where
  numTrades : Nat
  numDays : Nat
  totalReturn : JsNum
  annualReturn : JsNum
  sharpeRatio : JsNum
  sortinoRatio : JsNum
  calmarRatio : JsNum
  mdd : JsNum
  winRate : JsNum
  omegaRatio : JsNum
  var95 : JsNum
  cvar95 : JsNum
deriving DecidableEq, Repr

/-- The all-zero stats returned for an empty period (source lines 562-568
and 578-584). -/
def nullStats (numTrades numDays : Nat) : PerformanceStats :=
  { numTrades := numTrades, numDays := numDays,
    totalReturn := .fin 0, annualReturn := .fin 0, sharpeRatio := .fin 0,
    sortinoRatio := .fin 0, calmarRatio := .fin 0, mdd := .fin 0,
    winRate := .fin 0, omegaRatio := .fin 0, var95 := .fin 0, cvar95 := .fin 0 }

/-- `calculatePeriodStats` (source lines 561-646).  `sqrtFn` and `powFn`
stand for `Math.sqrt` and `Math.pow`, whose exact values have no rational
counterpart; every division of the source is guarded nonzero on its path,
so finite arithmetic is exact, and the `Infinity` sentinels and final
normalizations are modelled on `JsNum`.  The function also threads the
`detectedPnlColumn` instance state through `buildDailySeries`. -/
def calculatePeriodStats (cfg : Config) (sqrtFn : ℚ → ℚ) (powFn : ℚ → ℚ → ℚ)
    (col0 : Option String) (periodTrades : List Trade) :
    Option (PerformanceStats × Option String) :=
  match periodTrades with
  | [] => some (nullStats 0 0, col0)
  | _ :: _ =>
    let sorted := List.insertionSort (fun a b => a.ts ≤ b.ts) periodTrades
    match buildDailySeries cfg col0 sorted with
    | none => none
    | some (ds, col) =>
      if ds.totalDays = 0 then some (nullStats ds.totalTrades 0, col)
      else
        let totalDays : ℚ := ds.totalDays
        let avgReturnPct := (ds.dailyReturnPctSeries.foldl (· + ·) 0) / totalDays
        let stdDevPct := sqrtFn
          ((ds.dailyReturnPctSeries.foldl (fun s r => s + (r - avgReturnPct) ^ 2) 0)
            / totalDays)
        let sharpeRatio : ℚ := if stdDevPct = 0 then 0 else avgReturnPct / stdDevPct
        let negativeReturns := ds.dailyReturnPctSeries.filter (fun r => r < 0)
        let downsideDev :=
          if negativeReturns.length > 0 then
            sqrtFn ((negativeReturns.foldl (fun s r => s + r ^ 2) 0)
              / (negativeReturns.length : ℚ))
          else 0
        let sortinoRatio : JsNum :=
          if downsideDev = 0 then (if avgReturnPct > 0 then .posInf else .fin 0)
          else .fin (avgReturnPct / downsideDev)
        let gains := (ds.dailyReturnUSDSeries.filter (fun r => r > 0)).foldl (· + ·) 0
        let lossesAbs := |(ds.dailyReturnUSDSeries.filter (fun r => r < 0)).foldl (· + ·) 0|
        let omegaRatio : JsNum :=
          if lossesAbs = 0 then (if gains > 0 then .posInf else .fin 1)
          else .fin (gains / lossesAbs)
        let sortedDailyUSD := List.insertionSort (· ≤ ·) ds.dailyReturnUSDSeries
        let varIndex := sortedDailyUSD.length * 5 / 100
        let var95 := (sortedDailyUSD.get? varIndex).getD 0
        let cvarSlice := sortedDailyUSD.take (varIndex + 1)
        let cvar95 :=
          if cvarSlice.length > 0 then
            (cvarSlice.foldl (· + ·) 0) / (cvarSlice.length : ℚ)
          else 0
        let mdd := mddOfDaily (ds.dailyRecords.map (fun r => r.endEquity))
        let winningDays := (ds.dailyRecords.filter (fun r => r.dailyPnL > 0)).length
        let winRate := (winningDays : ℚ) / totalDays * 100
        let totalReturn := ds.finalEquity - cfg.initialCapital
        let startKey := (ds.dailyRecords.headI).date
        let endKey := (ds.dailyRecords.getLastI).date
        let durationInMs : ℚ := ((endKey - startKey) * 86400000 + 86399000 : Int)
        let durationInYears := durationInMs / (1000 * 60 * 60 * 24 * (1461 / 4 : ℚ))
        let annualReturn : ℚ :=
          if durationInYears > 0 ∧ cfg.initialCapital > 0 then
            if ds.finalEquity > 0 then
              (powFn (ds.finalEquity / cfg.initialCapital) (1 / durationInYears) - 1) * 100
            else -100
          else 0
        let calmarRatio : JsNum :=
          if mdd > 0 then .fin (annualReturn / mdd)
          else (if totalReturn > 0 then .posInf else .fin 0)
        some ({ numTrades := ds.totalTrades, numDays := ds.totalDays,
                totalReturn := .fin totalReturn,
                annualReturn := jsIsNaNClamp (.fin annualReturn),
                sharpeRatio := jsIsNaNClamp (.fin sharpeRatio),
                sortinoRatio := jsFiniteClamp sortinoRatio,
                calmarRatio := jsFiniteClamp calmarRatio,
                mdd := jsIsNaNClamp (.fin mdd),
                winRate := jsIsNaNClamp (.fin winRate),
                omegaRatio := jsFiniteClamp omegaRatio,
                var95 := jsIsNaNClamp (.fin var95),
                cvar95 := jsIsNaNClamp (.fin cvar95) }, col)

/-- `diffDays` (source lines 812-816) on day keys: both arguments land on
midnight, so the rounded quotient is exact and only the clamp at 0 remains. -/
def diffDays (a b : Int) : Int := max 0 (b - a)

/-- The open-drawdown state carried by `generateDrawdownEventsFromDaily`
(`currentDrawdown`, source lines 843-849). -/
structure OpenDD where
  startDate : Int
  peakEquity : ℚ
  troughEquity : ℚ
  troughDate : Int
deriving DecidableEq, Repr

/-- An emitted `DrawdownEvent`.  The source pushes the strict-exceed
closure without depth fields and fills them in the closing `forEach`
(source lines 890-897) with exactly the formulas below, so every event is
modelled fully populated. -/
structure DDEvent where
  startDate : Int
  peakEquity : ℚ
  troughEquity : ℚ
  troughDate : Int
  endDate : Int
  recovered : Bool
  recoveryEquity : ℚ
  depthUSD : ℚ
  depthPct : ℚ
  toTroughDays : Int
  fullDurationDays : Int
deriving DecidableEq, Repr

/-- Close an open drawdown at `endDate` (source lines 831-837, 858-870,
876-888 and the augmentation 890-897 share these formulas). -/
def mkClosedEvent (c : OpenDD) (endDate : Int) (recovered : Bool)
    (recoveryEquity : ℚ) : DDEvent :=
  { startDate := c.startDate, peakEquity := c.peakEquity,
    troughEquity := c.troughEquity, troughDate := c.troughDate,
    endDate := endDate, recovered := recovered, recoveryEquity := recoveryEquity,
    depthUSD := c.peakEquity - c.troughEquity,
    depthPct := (c.peakEquity - c.troughEquity) / c.peakEquity * 100,
    toTroughDays := diffDays c.startDate c.troughDate,
    fullDurationDays := diffDays c.startDate endDate }

/-- The day loop of `generateDrawdownEventsFromDaily` (source lines
825-874): a day above the running peak closes any open event with
`recovered: false` and resets the peak; a day below the peak opens or
deepens an event; a day exactly at the peak closes any open event with
`recovered: true`. -/
def ddGo : List DailyRecord → ℚ → Int → Option OpenDD → List DDEvent →
    ℚ × Int × Option OpenDD × List DDEvent
  | [], peak, peakDate, cur, evs => (peak, peakDate, cur, evs)
  | r :: rest, peak, peakDate, cur, evs =>
    let eq := r.endEquity
    let date := r.date
    if eq > peak then
      let evs' :=
        match cur with
        | some c => evs ++ [mkClosedEvent c date false eq]
        | none => evs
      ddGo rest eq date none evs'
    else if eq < peak then
      match cur with
      | none => ddGo rest peak peakDate (some ⟨peakDate, peak, eq, date⟩) evs
      | some c =>
        if eq < c.troughEquity then
          ddGo rest peak peakDate (some { c with troughEquity := eq, troughDate := date }) evs
        else ddGo rest peak peakDate (some c) evs
    else
      match cur with
      | some c => ddGo rest peak peakDate none (evs ++ [mkClosedEvent c date true eq])
      | none => ddGo rest peak peakDate none evs

/-- `generateDrawdownEventsFromDaily` (source lines 819-899): run the day
loop seeded with the first day's equity as peak, then emit a still-open
event as unrecovered at the last day. -/
def generateDrawdownEventsFromDaily (recs : List DailyRecord) : List DDEvent :=
  match recs with
  | [] => []
  | r0 :: _ =>
    let res := ddGo recs r0.endEquity r0.date none []
    match res.2.2.1, recs.getLast? with
    | some c, some rl => res.2.2.2 ++ [mkClosedEvent c rl.date false rl.endEquity]
    | _, _ => res.2.2.2

/-- `periodType` of `calculatePeriods` (source lines 446-451). -/
inductive PeriodUnit
  | day
  | week
  | month
deriving DecidableEq, Repr

/-- The window length in milliseconds (source lines 446-451); a month is
the deliberate 30-day approximation. -/
def intervalMs (u : PeriodUnit) (len : Nat) : Int :=
  match u with
  | .day => len * (24 * 60 * 60 * 1000)
  | .week => len * 7 * (24 * 60 * 60 * 1000)
  | .month => len * 30 * (24 * 60 * 60 * 1000)

/-- An emitted period (source lines 459-464). -/
structure Period where
  index : Nat
  startDate : Int
  endDate : Int
  trades : List Trade
deriving DecidableEq, Repr

/-- The window walk of `calculatePeriods` (source lines 452-467): collect
trades with timestamp in `[currentStart, currentStart + interval)`, emit
only nonempty windows, and bump the 1-based index only on emission.  The
source's `while (currentStart <= endDate)` loop advances by `interval`
milliseconds per iteration; it is rendered structurally with a fuel of
`(endD + 1 - currentStart).toNat`, which for a positive interval bounds
the iteration count (each iteration advances `currentStart` by at least
one), so the fuel never runs out before the loop guard turns false
(`periodLoop_fuel` below). -/
def periodLoop (trades : List Trade) (interval endD : Int) :
    Nat → Int → Nat → List Period
  | 0, _, _ => []
  | fuel + 1, currentStart, idx =>
    if currentStart ≤ endD then
      let currentEnd := currentStart + interval
      let periodTrades := trades.filter
        (fun t => decide (currentStart ≤ t.ts) && decide (t.ts < currentEnd))
      if periodTrades.isEmpty then
        periodLoop trades interval endD fuel currentEnd idx
      else
        { index := idx, startDate := currentStart, endDate := currentEnd,
          trades := periodTrades } :: periodLoop trades interval endD fuel currentEnd (idx + 1)
    else []

/-- `calculatePeriods` (source lines 442-471): `none` models the error
thrown on an empty trade list; the walk starts at the first trade's
timestamp and the index starts at 1. -/
def calculatePeriods (trades : List Trade) (u : PeriodUnit) (len : Nat) :
    Option (List Period) :=
  match trades with
  | [] => none
  | t0 :: rest =>
    let endD := ((t0 :: rest).getLast (by simp)).ts
    some (periodLoop (t0 :: rest) (intervalMs u len) endD
      (endD + 1 - t0.ts).toNat t0.ts 1)

/-- An emitted distribution bin (string display labels of the source are
omitted; `percentage` is kept exact, the source rounds it for display). -/
structure DistBin where
  binStart : ℚ
  binEnd : ℚ
  binCenter : ℚ
  count : Nat
  percentage : ℚ
  standardDeviations : ℚ
deriving DecidableEq, Repr

instance : IsTotal DistBin (fun a b => a.binCenter ≤ b.binCenter) :=
  ⟨fun a b => le_total a.binCenter b.binCenter⟩

instance : IsTrans DistBin (fun a b => a.binCenter ≤ b.binCenter) :=
  ⟨fun _ _ _ hab hbc => le_trans hab hbc⟩

/-- The bin index a sample value is assigned to (source lines 788-795 and
949-954): floor of its stddev offset from the first bin edge, clamped into
range. -/
def assignBinIdx (mean stdDev minStdDev binSize : ℚ) (numBins : Nat) (v : ℚ) : Nat :=
  let stdDevFromMean := (v - mean) / stdDev
  let raw := ⌊(stdDevFromMean - minStdDev) / binSize⌋
  if raw ≥ numBins then numBins - 1
  else if raw < 0 then 0
  else raw.toNat

/-- The bin at position `j` of the histogram's bin array (source lines
765-787 and 925-948): edges at `mean + stdPos·stdDev`, the count of the
sample values whose clamped index is `j`, and the center position in
standard-deviation units. -/
def mkBin (mean stdDev minStdDev binSize : ℚ) (numBins : Nat) (sample : List ℚ)
    (j : Nat) : DistBin :=
  let stdPos := minStdDev + j * binSize
  let binStart := mean + stdPos * stdDev
  let binEnd := mean + (stdPos + binSize) * stdDev
  { binStart := binStart, binEnd := binEnd,
    binCenter := (binStart + binEnd) / 2,
    count := (sample.filter
      (fun v => assignBinIdx mean stdDev minStdDev binSize numBins v == j)).length,
    percentage := (((sample.filter (fun v =>
      assignBinIdx mean stdDev minStdDev binSize numBins v == j)).length : ℚ)
      / (sample.length : ℚ)) * 100,
    standardDeviations := stdPos + binSize / 2 }

/-- The shared histogram core of `generatePnLDistributionData` (source
lines 742-808) and `generateDrawdownDistributionData` (source lines
903-963): mean and population stddev of the sample, a single collapsed bin
when the stddev is below `eps` (1e-6 resp. 1e-9 at the two call sites),
otherwise contiguous stddev-scaled bins from the floored minimum to the
ceiled maximum offset, each value counted in its clamped bin, and the bins
sorted by center.  The exact-arithmetic iteration count of the source's
`for` loop over bin positions is `⌊(maxStdDev − minStdDev)/binSize⌋ + 1`. -/
def binSample (eps binSize : ℚ) (sqrtFn : ℚ → ℚ) (sample : List ℚ) : List DistBin :=
  match sample with
  | [] => []
  | v0 :: _ =>
    let n : ℚ := sample.length
    let mean := (sample.foldl (· + ·) 0) / n
    let variance := (sample.foldl (fun s v => s + (v - mean) ^ 2) 0) / n
    let stdDev := sqrtFn variance
    if stdDev < eps then
      [{ binStart := mean, binEnd := mean, binCenter := mean,
         count := sample.length, percentage := 100, standardDeviations := 0 }]
    else
      let minV := sample.foldl min v0
      let maxV := sample.foldl max v0
      let minStdDev := ⌊(minV - mean) / stdDev / binSize⌋ * binSize
      let maxStdDev := ⌈(maxV - mean) / stdDev / binSize⌉ * binSize
      let numBins := (⌊(maxStdDev - minStdDev) / binSize⌋ + 1).toNat
      let bins := (List.range numBins).map
        (mkBin mean stdDev minStdDev binSize numBins sample)
      List.insertionSort (fun a b => a.binCenter ≤ b.binCenter) bins

/-- The per-trade net-P&L sample of `generatePnLDistributionData` (source
lines 718-741): the same cash-flow conversion as `buildDailySeries`, but
the running equity advances only under percentage sizing. -/
def pnlReturns (cfg : Config) (col : String) : List Trade → ℚ → List ℚ
  | [], _ => []
  | t :: ts, equity =>
    let e := tradeStep cfg col equity t
    e.net :: pnlReturns cfg col ts
      (if cfg.positionSizeType = .percentage then e.newEquity else equity)

/-- `generatePnLDistributionData` (source lines 716-809) given the already
detected P&L column. -/
def generatePnLDistributionData (cfg : Config) (sqrtFn : ℚ → ℚ) (col : String)
    (trades : List Trade) : List DistBin :=
  binSample (1 / 1000000) cfg.binSizeInStdDev sqrtFn
    (pnlReturns cfg col trades cfg.initialCapital)

/-- `generateDrawdownDistributionData` (source lines 902-964): signed
depths `-|depthUSD|`, collapse threshold 1e-9. -/
def generateDrawdownDistributionData (cfg : Config) (sqrtFn : ℚ → ℚ)
    (events : List DDEvent) : List DistBin :=
  binSample (1 / 1000000000) cfg.binSizeInStdDev sqrtFn
    (events.map (fun ev => -|ev.depthUSD|))

/-! Spec-side definitions for the MDD claim, following the spec's words:
the running peak over the daily equity series, the peak-to-trough drop at
each day, and the maximum such drop. -/

/-- The running peak at day `i`: the maximum equity over days `0..i`. -/
def prefixMax (l : List ℚ) (i : Nat) : ℚ :=
  match l with
  | [] => 0
  | e :: rest => (rest.take i).foldl max e

/-- The peak-to-trough drop at day `i`: running peak minus that day's
equity. -/
def specDrop (l : List ℚ) (i : Nat) : ℚ := prefixMax l i - l.getD i 0

/-- The maximum peak-to-trough drop over the series. -/
def specMaxDrop (l : List ℚ) : ℚ :=
  ((List.range l.length).map (specDrop l)).foldl max 0

/-- The overall maximum of a daily equity series (the final value of the
source's running peak). -/
def listMax : List ℚ → ℚ
  | [] => 0
  | e :: rest => rest.foldl max e

/-- The list of per-day drops produced by the source's scan when started
at peak `p`: a proof device relating `mddScan` to `specMaxDrop`. -/
def dropsFrom (p : ℚ) : List ℚ → List ℚ
  | [] => []
  | e :: rest => (max p e - e) :: dropsFrom (max p e) rest

/-- The invariant carried by the `buildDailySeries` loop over the
newest-first record list: consecutive records chain start to end equity,
the oldest record starts at the initial capital, the newest record ends at
the running equity, and record dates strictly decrease (newest first). -/
structure RevInv (init eq : ℚ) (R : List DayRec) : Prop where
  chain : R.Chain' (fun n o => n.startEquity = o.endEquity)
  oldest : ∀ r, R.getLast? = some r → r.startEquity = init
  newest : ∀ r, R.head? = some r → r.endEquity = eq
  base : R = [] → eq = init
  dates : R.Pairwise (fun a b => b.date < a.date)

/-! Concrete inputs used by counterexamples and witnesses. -/

/-- A fixed-sizing configuration: capital 10, zero commission,
stake 100. -/
def cfg3 : Config := ⟨10, 0, .fixed, 100, 1 / 10⟩

/-- A trade whose only P&L-like column is named `profit`. -/
def trA : Trade := ⟨0, [("profit", 10)]⟩

/-- A trade whose only P&L-like column is named `pnl`. -/
def trB : Trade := ⟨0, [("pnl", 7)]⟩

/-- A concrete finite stand-in for `Math.sqrt` (theorems quantify over the
function; witnesses instantiate it). -/
def idSqrt (q : ℚ) : ℚ := q

/-- A concrete finite stand-in for `Math.pow`. -/
def idPow (a _b : ℚ) : ℚ := a

/-- A fixed-sizing configuration with a 1% per-side commission rate. -/
def cfg5 : Config := ⟨10000, 1 / 100, .fixed, 100, 1 / 10⟩

/-- One trade with 10 dollars reported P&L. -/
def tr5 : Trade := ⟨0, [("pnl", 10)]⟩

/-- A percentage-sizing configuration: capital 10000, stake 10% of equity,
zero commission. -/
def cfg9 : Config := ⟨10000, 0, .percentage, 10, 1 / 10⟩

/-- A trade on day `d` reporting `p` percent P&L. -/
def pctTrade (d : Int) (p : ℚ) : Trade := ⟨d * 86400000, [("P&L %", p)]⟩

/-- The spec's three-trade scenario: +10%, −5%, +10% on successive days. -/
def tr9 : List Trade := [pctTrade 1 10, pctTrade 2 (-5), pctTrade 3 10]

/-- A daily equity series whose drawdown recovers strictly above the
prior peak: 100, then 90, then 110. -/
def c2Daily : List DailyRecord :=
  [⟨0, 100, 100, 0, 1, 0⟩, ⟨1, 100, 90, -10, 1, -1 / 10⟩, ⟨2, 90, 110, 20, 1, 2 / 9⟩]

/-- Two trades two days apart, leaving one empty one-day window between
them. -/
def tr7 : List Trade := [⟨0, [("pnl", 1)]⟩, ⟨2 * 86400000, [("pnl", 2)]⟩]


/-! ## Evaluation lemmas

Ground facts about the concrete inputs, used by the counterexamples and
witnesses below.  String and date computations are kernel-decidable;
rational arithmetic is evaluated by `norm_num` (the library's rational
operations are irreducible to `decide`). -/

theorem dateKey_day1 : dateKey 86400000 = 1 := by decide

theorem dateKey_day2 : dateKey 172800000 = 2 := by decide

theorem dateKey_day3 : dateKey 259200000 = 3 := by decide

theorem detect_pct (ts : Int) (p : ℚ) :
    detectPnlColumn ⟨ts, [("P&L %", p)]⟩ = some "P&L %" := by
  simp only [detectPnlColumn, List.map, List.filter]
  decide

theorem colVal_pct (ts : Int) (p : ℚ) : colVal ⟨ts, [("P&L %", p)]⟩ "P&L %" = p := by
  simp [colVal]

theorem bds9_eval : buildDailySeries cfg9 none tr9 = some (⟨
    [⟨1, 10000, 10100, 100, 1, 1 / 100⟩,
     ⟨2, 10100, 20099 / 2, -101 / 2, 1, -1 / 200⟩,
     ⟨3, 20099 / 2, 2029999 / 200, 20099 / 200, 1, 1 / 100⟩],
    [1 / 100, -1 / 200, 1 / 100], [100, -101 / 2, 20099 / 200],
    3, 3, 2029999 / 200⟩, some "P&L %") := by
  norm_num [buildDailySeries, buildLoop, tradeStep, calculatePositionSize, detect_pct,
    colVal_pct, cfg9, tr9, pctTrade, dateKey_day1, dateKey_day2, dateKey_day3,
    hasDay, updateDay, finishRecord, List.filter]

/-! ## Claim theorems -/

/-- C9: under percentage sizing at 10% with zero commission and initial
capital 10000, the three-trade scenario (+10%, −5%, +10% on successive
days) produces stakes 1000, 1010, 1004.95 and equities 10100, 10049.5,
10149.995; each stake is 10% of the equity left by the preceding trade. -/
theorem percentage_sizing_scenario :
    (buildDailySeries cfg9 none tr9).map
        (fun p => p.1.dailyRecords.map
          (fun r => (calculatePositionSize cfg9 r.startEquity, r.endEquity)))
      = some [(1000, 10100), (1010, 20099 / 2), (20099 / 20, 2029999 / 200)] ∧
    (buildDailySeries cfg9 none tr9).map (fun p => p.1.finalEquity)
      = some (2029999 / 200) := by
  rw [bds9_eval]
  norm_num [calculatePositionSize, cfg9]

/-- C1 counterexample: on the daily equity series 100, 50, 200 the unique
maximum peak-to-trough drop is 50, at day 1, where the running peak is
100, so the claimed MDD is 50/100 × 100 = 50; the code reports
50/200 × 100 = 25 because it divides by the final running peak. -/
theorem mdd_counterexample :
    mddOfDaily [100, 50, 200] = 25 ∧
    specMaxDrop [100, 50, 200] = 50 ∧
    specDrop [100, 50, 200] 1 = 50 ∧
    specDrop [100, 50, 200] 0 ≠ 50 ∧
    specDrop [100, 50, 200] 2 ≠ 50 ∧
    prefixMax [100, 50, 200] 1 = 100 ∧
    (25 : ℚ) ≠ 50 / 100 * 100 := by
  norm_num [mddOfDaily, mddScan, specMaxDrop, specDrop, prefixMax,
    List.range_succ, List.getD]

/-- C2: on the series 100, 90, 110 the drawdown opened at peak 100 is
closed by day 2, whose equity 110 exceeds the peak, yet the code emits the
event with `recovered = false` (the claim and the spec say a day meeting
or exceeding the peak closes the event as recovered). -/
theorem drawdown_exceed_marked_unrecovered :
    (generateDrawdownEventsFromDaily c2Daily).map
        (fun ev => (ev.peakEquity, ev.recoveryEquity, ev.endDate, ev.recovered))
      = [(100, 110, 2, false)] ∧ (100 : ℚ) < 110 := by
  norm_num [generateDrawdownEventsFromDaily, ddGo, c2Daily, mkClosedEvent, diffDays]

/-- C5 counterexample: with a configured commission rate of 1/100 and a
fixed stake of 100, the commission charged is 2, not
stake × commissionRate = 1: the source charges the configured rate on both
legs of the round trip. -/
theorem commission_counterexample :
    (tradeStep cfg5 "pnl" 10000 tr5).stake = 100 ∧
    cfg5.commissionRate = 1 / 100 ∧
    (tradeStep cfg5 "pnl" 10000 tr5).commission = 2 ∧
    (2 : ℚ) ≠ 100 * (1 / 100) := by
  have h1 : colVal tr5 "P&L %" = 0 := by decide
  norm_num [tradeStep, cfg5, calculatePositionSize, h1]

/-- C5 amended: the commission charged equals the stake times the
configured per-side commission rate times 2 (one charge per leg of the
round trip), and net P&L is gross P&L minus that commission. -/
theorem commission_amended (cfg : Config) (col : String) (equity : ℚ) (t : Trade) :
    (tradeStep cfg col equity t).commission
        = (tradeStep cfg col equity t).stake * cfg.commissionRate * 2 ∧
    (tradeStep cfg col equity t).net
        = (tradeStep cfg col equity t).gross - (tradeStep cfg col equity t).commission := by
  constructor <;> rfl

/-- The daily series for the `profit`-column trade under `cfg3`. -/
theorem bdsA_eval : buildDailySeries cfg3 none [trA]
    = some (⟨[⟨0, 10, 20, 10, 1, 1⟩], [1], [10], 1, 1, 20⟩, some "profit") := by
  with_unfolding_all decide

/-- The daily series for the `pnl`-column trade from a fresh state. -/
theorem bdsB_fresh : buildDailySeries cfg3 none [trB]
    = some (⟨[⟨0, 10, 17, 7, 1, 7 / 10⟩], [7 / 10], [7], 1, 1, 17⟩, some "pnl") := by
  with_unfolding_all decide

/-- The daily series for the `pnl`-column trade when the column `profit`
is already cached: the trade's P&L is read from a missing column as 0. -/
theorem bdsB_stale : buildDailySeries cfg3 (some "profit") [trB]
    = some (⟨[⟨0, 10, 10, 0, 1, 0⟩], [0], [0], 1, 1, 10⟩, some "profit") := by
  with_unfolding_all decide

/-- C3 counterexample: computing stats on a sequence whose P&L column is
named `profit` caches that column name; a later run on a sequence whose
column is named `pnl` then reads a missing column (total return 0),
whereas the same run from a fresh state detects `pnl` and sees the 7
dollar profit. -/
theorem stats_state_counterexample :
    (calculatePeriodStats cfg3 idSqrt idPow none [trA]).map (fun p => p.2)
      = some (some "profit") ∧
    (calculatePeriodStats cfg3 idSqrt idPow (some "profit") [trB]).map
        (fun p => p.1.totalReturn) = some (.fin 0) ∧
    (calculatePeriodStats cfg3 idSqrt idPow none [trB]).map
        (fun p => p.1.totalReturn) = some (.fin 7) ∧
    JsNum.fin (0 : ℚ) ≠ JsNum.fin 7 := by
  have hinit : cfg3.initialCapital = 10 := rfl
  refine ⟨?_, ?_, ?_, by decide⟩ <;>
    norm_num [calculatePeriodStats, List.insertionSort, List.orderedInsert,
      bdsA_eval, bdsB_fresh, bdsB_stale, hinit]

/-- When the first trade's detected column is `c`, starting the loop with
an empty cached state is the same as starting it with `c` cached. -/
theorem buildLoop_detect_state (cfg : Config) (t : Trade) (ts : List Trade)
    (eq : ℚ) (recs : List DayRec) (c : String) (h : detectPnlColumn t = some c) :
    buildLoop cfg (t :: ts) none eq recs = buildLoop cfg (t :: ts) (some c) eq recs := by
  simp [buildLoop, h]

/-- `buildDailySeries` from a fresh state agrees with `buildDailySeries`
from a cached column `c` when the first trade detects `c` itself. -/
theorem buildDailySeries_detect_state (cfg : Config) (t0 : Trade) (ts : List Trade)
    (c : String) (h : detectPnlColumn t0 = some c) :
    buildDailySeries cfg (some c) (t0 :: ts) = buildDailySeries cfg none (t0 :: ts) := by
  simp only [buildDailySeries]
  rw [buildLoop_detect_state cfg t0 ts cfg.initialCapital [] c h]

/-- C3 amended: the stats computation is noninterfering only up to the
cached `detectedPnlColumn` state: a run on `B` from a cached column `c`
agrees with a run on `B` from a fresh state provided the first trade of
`B` (in timestamp order) resolves its P&L column to that same `c`.  (The
counterexample shows the two runs differ when the cached column does not
match.) -/
theorem stats_state_amended (cfg : Config) (sqrtFn : ℚ → ℚ) (powFn : ℚ → ℚ → ℚ)
    (c : String) (B : List Trade) (t0 : Trade) (ts' : List Trade)
    (hsort : List.insertionSort (fun a b => a.ts ≤ b.ts) B = t0 :: ts')
    (hdet : detectPnlColumn t0 = some c) :
    calculatePeriodStats cfg sqrtFn powFn (some c) B
      = calculatePeriodStats cfg sqrtFn powFn none B := by
  cases B with
  | nil => simp [List.insertionSort] at hsort
  | cons b bs =>
    simp only [calculatePeriodStats]
    rw [hsort]
    rw [buildDailySeries_detect_state cfg t0 ts' c hdet]

/-- Witness for the amended C3 theorem at a concrete one-trade input. -/
theorem stats_state_amended_witness :
    List.insertionSort (fun a b => a.ts ≤ b.ts) [trB] = trB :: ([] : List Trade) ∧
    detectPnlColumn trB = some "pnl" ∧
    calculatePeriodStats cfg3 idSqrt idPow (some "pnl") [trB]
      = calculatePeriodStats cfg3 idSqrt idPow none [trB] :=
  ⟨by decide, by decide,
    stats_state_amended cfg3 idSqrt idPow "pnl" [trB] trB [] (by decide) (by decide)⟩

/-- C10: every emitted `DailyRecord` has a total, guarded daily return:
when a day's start equity is not strictly positive the return is defined
to be 0, and otherwise it is exactly the relative equity change, so the
division is never taken over a nonpositive base. -/
theorem daily_return_guard (cfg : Config) (col0 : Option String)
    (trades : List Trade) (ds : DailySeries) (c : Option String)
    (h : buildDailySeries cfg col0 trades = some (ds, c)) :
    ∀ r ∈ ds.dailyRecords,
      (r.startEquity ≤ 0 → r.dailyReturnPct = 0) ∧
      (0 < r.startEquity → r.dailyReturnPct * r.startEquity
          = r.endEquity - r.startEquity) := by
  have hds : ds.dailyRecords = [] ∨
      ∃ revRecs : List DayRec, ds.dailyRecords = revRecs.reverse.map finishRecord := by
    cases trades with
    | nil =>
      simp only [buildDailySeries, Option.some.injEq, Prod.mk.injEq] at h
      left
      rw [← h.1]
    | cons t ts =>
      cases hb : buildLoop cfg (t :: ts) col0 cfg.initialCapital [] with
      | none => rw [buildDailySeries, hb] at h; exact absurd h (by simp)
      | some res =>
        obtain ⟨colx, eqx, revRecs⟩ := res
        rw [buildDailySeries, hb] at h
        simp only [Option.some.injEq, Prod.mk.injEq] at h
        right
        exact ⟨revRecs, by rw [← h.1]⟩
  intro r hr
  rcases hds with hnil | ⟨revRecs, hmap⟩
  · rw [hnil] at hr; cases hr
  · rw [hmap] at hr
    obtain ⟨r', _, rfl⟩ := List.mem_map.mp hr
    constructor
    · intro h0
      simp only [finishRecord] at h0 ⊢
      rw [if_neg (not_lt.mpr h0)]
    · intro h0
      simp only [finishRecord] at h0 ⊢
      rw [if_pos h0]
      exact div_mul_cancel₀ _ (ne_of_gt h0)

/-- Witness for C10 at the one-trade input of `bdsB_fresh`. -/
theorem daily_return_guard_witness :
    ((⟨0, 10, 17, 7, 1, 7 / 10⟩ : DailyRecord).startEquity ≤ 0 →
      (⟨0, 10, 17, 7, 1, 7 / 10⟩ : DailyRecord).dailyReturnPct = 0) ∧
    (0 < (⟨0, 10, 17, 7, 1, 7 / 10⟩ : DailyRecord).startEquity →
      (⟨0, 10, 17, 7, 1, 7 / 10⟩ : DailyRecord).dailyReturnPct
          * (⟨0, 10, 17, 7, 1, 7 / 10⟩ : DailyRecord).startEquity
        = (⟨0, 10, 17, 7, 1, 7 / 10⟩ : DailyRecord).endEquity
          - (⟨0, 10, 17, 7, 1, 7 / 10⟩ : DailyRecord).startEquity) :=
  daily_return_guard cfg3 none [trB]
    ⟨[⟨0, 10, 17, 7, 1, 7 / 10⟩], [7 / 10], [7], 1, 1, 17⟩ (some "pnl") bdsB_fresh
    ⟨0, 10, 17, 7, 1, 7 / 10⟩ (by simp)

/-- The `isFinite ? x : 0` normalization always yields a finite value. -/
theorem jsFiniteClamp_isFinite (x : JsNum) : (jsFiniteClamp x).isFinite = true := by
  cases x <;> rfl

/-- The `isNaN ? 0 : x` normalization of an exact value is finite. -/
theorem jsIsNaNClamp_fin_isFinite (q : ℚ) :
    (jsIsNaNClamp (JsNum.fin q)).isFinite = true := rfl

/-- C4: every metric field of an emitted `PerformanceStats` record is
finite — never NaN or an infinity — for every `Math.sqrt`/`Math.pow`
behaviour, configuration, cached column state and trade sequence: the
divisions are all guarded nonzero on their paths and the `Infinity`
sentinels of the unbounded ratios are clamped to their fallbacks before
the record is returned. -/
theorem stats_all_finite (cfg : Config) (sqrtFn : ℚ → ℚ) (powFn : ℚ → ℚ → ℚ)
    (col0 : Option String) (trades : List Trade) (st : PerformanceStats)
    (c : Option String)
    (h : calculatePeriodStats cfg sqrtFn powFn col0 trades = some (st, c)) :
    st.totalReturn.isFinite = true ∧ st.annualReturn.isFinite = true ∧
    st.sharpeRatio.isFinite = true ∧ st.sortinoRatio.isFinite = true ∧
    st.calmarRatio.isFinite = true ∧ st.mdd.isFinite = true ∧
    st.winRate.isFinite = true ∧ st.omegaRatio.isFinite = true ∧
    st.var95.isFinite = true ∧ st.cvar95.isFinite = true := by
  cases trades with
  | nil =>
    simp only [calculatePeriodStats, Option.some.injEq, Prod.mk.injEq] at h
    rw [← h.1]
    exact ⟨rfl, rfl, rfl, rfl, rfl, rfl, rfl, rfl, rfl, rfl⟩
  | cons t ts =>
    simp only [calculatePeriodStats] at h
    cases hb : buildDailySeries cfg col0
        (List.insertionSort (fun a b => a.ts ≤ b.ts) (t :: ts)) with
    | none => rw [hb] at h; exact absurd h (by simp)
    | some p =>
      obtain ⟨ds, col⟩ := p
      rw [hb] at h
      simp only at h
      by_cases hd : ds.totalDays = 0
      · rw [if_pos hd] at h
        simp only [Option.some.injEq, Prod.mk.injEq] at h
        rw [← h.1]
        exact ⟨rfl, rfl, rfl, rfl, rfl, rfl, rfl, rfl, rfl, rfl⟩
      · rw [if_neg hd] at h
        simp only [Option.some.injEq, Prod.mk.injEq] at h
        rw [← h.1]
        exact ⟨rfl, jsIsNaNClamp_fin_isFinite _, jsIsNaNClamp_fin_isFinite _,
          jsFiniteClamp_isFinite _, jsFiniteClamp_isFinite _,
          jsIsNaNClamp_fin_isFinite _, jsIsNaNClamp_fin_isFinite _,
          jsFiniteClamp_isFinite _, jsIsNaNClamp_fin_isFinite _,
          jsIsNaNClamp_fin_isFinite _⟩

/-- Witness for C4 at the empty trade list (the null-stats record). -/
theorem stats_all_finite_witness :
    (nullStats 0 0).totalReturn.isFinite = true ∧
    (nullStats 0 0).annualReturn.isFinite = true ∧
    (nullStats 0 0).sharpeRatio.isFinite = true ∧
    (nullStats 0 0).sortinoRatio.isFinite = true ∧
    (nullStats 0 0).calmarRatio.isFinite = true ∧
    (nullStats 0 0).mdd.isFinite = true ∧
    (nullStats 0 0).winRate.isFinite = true ∧
    (nullStats 0 0).omegaRatio.isFinite = true ∧
    (nullStats 0 0).var95.isFinite = true ∧
    (nullStats 0 0).cvar95.isFinite = true :=
  stats_all_finite cfg3 idSqrt idPow none [] (nullStats 0 0) none rfl

/-- The source's `if (x > peak) peak = x` update is the binary maximum. -/
theorem ite_gt_eq_max (a b : ℚ) : (if b > a then b else a) = max a b := by
  rcases lt_or_ge a b with h | h
  · rw [if_pos h, max_eq_right h.le]
  · rw [if_neg (not_lt.mpr h), max_eq_left h]

/-- The running peak left by the scan is the fold of `max`. -/
theorem mddScan_fst (l : List ℚ) : ∀ peak m : ℚ,
    (mddScan l peak m).1 = l.foldl max peak := by
  induction l with
  | nil => intro peak m; rfl
  | cons e rest ih =>
    intro peak m
    simp only [mddScan, ite_gt_eq_max, List.foldl_cons]
    rw [ih]

/-- The maximum drop left by the scan folds `max` over the per-day drops. -/
theorem mddScan_snd (l : List ℚ) : ∀ peak m : ℚ,
    (mddScan l peak m).2 = (dropsFrom peak l).foldl max m := by
  induction l with
  | nil => intro peak m; rfl
  | cons e rest ih =>
    intro peak m
    simp only [mddScan, ite_gt_eq_max, dropsFrom, List.foldl_cons]
    rw [ih]

/-- The fold over the scan's drop list equals the fold over the drops
expressed through prefix maxima. -/
theorem dropsFrom_foldl (l : List ℚ) : ∀ p m : ℚ,
    (dropsFrom p l).foldl max m
      = ((List.range l.length).map
          (fun i => (l.take (i + 1)).foldl max p - l.getD i 0)).foldl max m := by
  induction l with
  | nil => intro p m; rfl
  | cons e r ih =>
    intro p m
    simp only [dropsFrom, List.foldl_cons, List.length_cons,
      List.range_succ_eq_map, List.map_cons, List.map_map]
    rw [ih]
    congr 1

/-- The scan's maximum drop started at the first equity is exactly the
spec-side maximum peak-to-trough drop. -/
theorem dropsFrom_specMaxDrop (e0 : ℚ) (rest : List ℚ) :
    (dropsFrom e0 (e0 :: rest)).foldl max 0 = specMaxDrop (e0 :: rest) := by
  rw [dropsFrom_foldl]
  unfold specMaxDrop
  congr 1
  apply List.map_congr_left
  intro i _
  unfold specDrop prefixMax
  simp [List.take_succ_cons, max_self]

/-- C1 amended: the reported MDD of a nonempty daily equity series is the
maximum peak-to-trough drop divided by the overall maximum equity of the
series (the final running peak) times 100 when that maximum is positive,
and 0 otherwise. -/
theorem mdd_amended (l : List ℚ) (h : l ≠ []) :
    mddOfDaily l = if 0 < listMax l then specMaxDrop l / listMax l * 100 else 0 := by
  cases l with
  | nil => exact absurd rfl h
  | cons e0 rest =>
    have h1 : (mddScan (e0 :: rest) e0 0).1 = listMax (e0 :: rest) := by
      rw [mddScan_fst]
      simp [listMax, max_self]
    have h2 : (mddScan (e0 :: rest) e0 0).2 = specMaxDrop (e0 :: rest) := by
      rw [mddScan_snd, dropsFrom_specMaxDrop]
    simp only [mddOfDaily, h1, h2]

/-- Witness for the amended C1 theorem at a concrete series. -/
theorem mdd_amended_witness :
    ([1, 2] : List ℚ) ≠ [] ∧
    mddOfDaily [1, 2]
      = (if 0 < listMax [1, 2] then specMaxDrop [1, 2] / listMax [1, 2] * 100 else 0) :=
  ⟨by decide, mdd_amended [1, 2] (by decide)⟩

/-- One aggregation step of the `buildDailySeries` loop preserves the
newest-first invariant: a trade whose day is no earlier than the newest
recorded day either updates the newest record's end equity in place (same
day) or opens a new day starting at the current equity. -/
theorem step_inv (init eq newEq : ℚ) (R : List DayRec) (key : Int) (net : ℚ)
    (hInv : RevInv init eq R) (hge : ∀ r ∈ R.head?, r.date ≤ key) :
    RevInv init newEq
      (if hasDay key R then updateDay key net newEq R
       else ⟨key, eq, newEq, net, 1⟩ :: R) ∧
    (∀ r ∈ (if hasDay key R then updateDay key net newEq R
            else ⟨key, eq, newEq, net, 1⟩ :: R).head?, r.date ≤ key) := by
  by_cases hhd : hasDay key R
  · cases R with
    | nil => simp [hasDay] at hhd
    | cons r0 rest =>
      have hr0 : r0.date = key := by
        rcases List.any_eq_true.mp hhd with ⟨r, hrmem, hrkey⟩
        have hrkey' : r.date = key := by simpa using hrkey
        rcases List.mem_cons.mp hrmem with rfl | htail
        · exact hrkey'
        · have h1 : r.date < r0.date := (List.pairwise_cons.mp hInv.dates).1 r htail
          have h2 : r0.date ≤ key := hge r0 rfl
          omega
      rw [if_pos hhd]
      have hupd : updateDay key net newEq (r0 :: rest)
          = { r0 with endEquity := newEq, dailyPnL := r0.dailyPnL + net,
                      tradeCount := r0.tradeCount + 1 } :: rest := by
        rw [updateDay, if_pos hr0]
      rw [hupd]
      obtain ⟨hchainHd, hchainTl⟩ := List.chain'_cons'.mp hInv.chain
      refine ⟨⟨List.chain'_cons'.mpr ⟨fun y hy => hchainHd y hy, hchainTl⟩, ?_, ?_, ?_, ?_⟩, ?_⟩
      · intro r hr
        cases rest with
        | nil =>
          simp only [List.getLast?_singleton, Option.mem_def, Option.some.injEq] at hr
          rw [← hr]
          exact hInv.oldest r0 rfl
        | cons x xs =>
          rw [List.getLast?_cons_cons] at hr
          exact hInv.oldest r (by rw [List.getLast?_cons_cons]; exact hr)
      · intro r hr
        simp only [List.head?_cons, Option.mem_def, Option.some.injEq] at hr
        rw [← hr]
      · intro hcon; cases hcon
      · exact List.pairwise_cons.mpr
          ⟨fun b hb => (List.pairwise_cons.mp hInv.dates).1 b hb,
           (List.pairwise_cons.mp hInv.dates).2⟩
      · intro r hr
        simp only [List.head?_cons, Option.mem_def, Option.some.injEq] at hr
        rw [← hr]
        exact hr0.le
  · rw [if_neg hhd]
    have hnotin : ∀ r ∈ R, r.date ≠ key := by
      intro r hr hk
      exact hhd (List.any_eq_true.mpr ⟨r, hr, by simpa using hk⟩)
    refine ⟨⟨?_, ?_, ?_, ?_, ?_⟩, ?_⟩
    · refine List.chain'_cons'.mpr ⟨?_, hInv.chain⟩
      intro y hy
      exact (hInv.newest y hy).symm
    · intro r hr
      cases R with
      | nil =>
        simp only [List.getLast?_singleton, Option.mem_def, Option.some.injEq] at hr
        rw [← hr]
        exact hInv.base rfl
      | cons x xs =>
        rw [List.getLast?_cons_cons] at hr
        exact hInv.oldest r hr
    · intro r hr
      simp only [List.head?_cons, Option.mem_def, Option.some.injEq] at hr
      rw [← hr]
    · intro hcon; cases hcon
    · refine List.pairwise_cons.mpr ⟨?_, hInv.dates⟩
      intro b hb
      cases R with
      | nil => cases hb
      | cons r0 rest =>
        have h2 : r0.date ≤ key := hge r0 rfl
        have h3 : r0.date ≠ key := hnotin r0 (List.mem_cons_self r0 rest)
        show b.date < key
        rcases List.mem_cons.mp hb with h5 | htail
        · rw [h5]
          omega
        · have h4 : b.date < r0.date := (List.pairwise_cons.mp hInv.dates).1 b htail
          omega
    · intro r hr
      simp only [List.head?_cons, Option.mem_def, Option.some.injEq] at hr
      rw [← hr]

/-- The `buildDailySeries` loop preserves the newest-first invariant over
a day-sorted trade sequence. -/
theorem buildLoop_inv (cfg : Config) (init : ℚ) :
    ∀ (ts : List Trade) (col : Option String) (eq : ℚ) (R : List DayRec),
      ts.Pairwise (fun a b => dateKey a.ts ≤ dateKey b.ts) →
      RevInv init eq R →
      (∀ t ∈ ts, ∀ r ∈ R.head?, r.date ≤ dateKey t.ts) →
      ∀ res, buildLoop cfg ts col eq R = some res →
        RevInv init res.2.1 res.2.2 := by
  intro ts
  induction ts with
  | nil =>
    intro col eq R _ hInv _ res hres
    simp only [buildLoop, Option.some.injEq] at hres
    rw [← hres]
    exact hInv
  | cons t ts ih =>
    intro col eq R hsort hInv hge res hres
    simp only [buildLoop] at hres
    cases hcol : (match col with
                  | some c => some c
                  | none => detectPnlColumn t) with
    | none => rw [hcol] at hres; cases hres
    | some c =>
      rw [hcol] at hres
      have hstep := step_inv init eq (tradeStep cfg c eq t).newEquity R
        (dateKey t.ts) (tradeStep cfg c eq t).net hInv
        (fun r hr => hge t (List.mem_cons_self t ts) r hr)
      refine ih (some c) (tradeStep cfg c eq t).newEquity _
        (List.Pairwise.of_cons hsort) hstep.1 ?_ res hres
      intro t' ht' r hr
      have h1 : r.date ≤ dateKey t.ts := hstep.2 r hr
      have h2 : dateKey t.ts ≤ dateKey t'.ts := (List.pairwise_cons.mp hsort).1 t' ht'
      omega

/-- C6: for every day-sorted trade sequence, the emitted `DailyRecord`
list satisfies the running-equity invariant: the first day starts at the
initial capital and every later day starts at the previous day's end
equity. -/
theorem daily_equity_invariant (cfg : Config) (col0 : Option String)
    (trades : List Trade) (ds : DailySeries) (c : Option String)
    (hsort : trades.Pairwise (fun a b => dateKey a.ts ≤ dateKey b.ts))
    (h : buildDailySeries cfg col0 trades = some (ds, c)) :
    (∀ r ∈ ds.dailyRecords.head?, r.startEquity = cfg.initialCapital) ∧
    ds.dailyRecords.Chain' (fun a b => b.startEquity = a.endEquity) := by
  cases trades with
  | nil =>
    simp only [buildDailySeries, Option.some.injEq, Prod.mk.injEq] at h
    rw [← h.1]
    exact ⟨fun r hr => (by cases hr), List.chain'_nil⟩
  | cons t ts =>
    cases hb : buildLoop cfg (t :: ts) col0 cfg.initialCapital [] with
    | none => rw [buildDailySeries, hb] at h; exact absurd h (by simp)
    | some res =>
      obtain ⟨colx, eqx, revRecs⟩ := res
      have hInv0 : RevInv cfg.initialCapital cfg.initialCapital [] :=
        ⟨List.chain'_nil, fun r hr => (by cases hr), fun r hr => (by cases hr),
         fun _ => rfl, List.Pairwise.nil⟩
      have hinv := buildLoop_inv cfg cfg.initialCapital (t :: ts) col0
        cfg.initialCapital [] hsort hInv0 (fun _ _ r hr => by cases hr)
        (colx, eqx, revRecs) hb
      rw [buildDailySeries, hb] at h
      simp only [Option.some.injEq, Prod.mk.injEq] at h
      have hds : ds.dailyRecords = revRecs.reverse.map finishRecord := by
        rw [← h.1]
      rw [hds]
      constructor
      · intro r hr
        rw [List.head?_map, List.head?_reverse] at hr
        cases hlast : revRecs.getLast? with
        | none => rw [hlast] at hr; cases hr
        | some rl =>
          rw [hlast] at hr
          simp only [Option.map_some', Option.mem_def, Option.some.injEq] at hr
          rw [← hr]
          exact hinv.oldest rl hlast
      · rw [List.chain'_map, List.chain'_reverse]
        exact hinv.chain

/-- The daily series of the two-day input `tr7` under `cfg3`. -/
theorem bds7_eval : buildDailySeries cfg3 none tr7
    = some (⟨[⟨0, 10, 11, 1, 1, 1 / 10⟩, ⟨2, 11, 13, 2, 1, 2 / 11⟩],
        [1 / 10, 2 / 11], [1, 2], 2, 2, 13⟩, some "pnl") := by
  with_unfolding_all decide

/-- Witness for C6 at the two-day input `tr7`. -/
theorem daily_equity_invariant_witness :
    ([⟨0, 10, 11, 1, 1, 1 / 10⟩, ⟨2, 11, 13, 2, 1, 2 / 11⟩] : List DailyRecord).Chain'
      (fun a b => b.startEquity = a.endEquity) :=
  (daily_equity_invariant cfg3 none tr7
    ⟨[⟨0, 10, 11, 1, 1, 1 / 10⟩, ⟨2, 11, 13, 2, 1, 2 / 11⟩],
      [1 / 10, 2 / 11], [1, 2], 2, 2, 13⟩ (some "pnl") (by decide) bds7_eval).2

/-- The window walk emits only nonempty windows, each holding exactly the
trades inside its half-open window, with consecutive indices from `idx`. -/
theorem periodLoop_spec (trades : List Trade) (interval endD : Int) :
    ∀ (fuel : Nat) (start : Int) (idx : Nat),
      (∀ p ∈ periodLoop trades interval endD fuel start idx,
        p.trades ≠ [] ∧
        p.trades = trades.filter
          (fun t => decide (p.startDate ≤ t.ts) && decide (t.ts < p.endDate))) ∧
      (periodLoop trades interval endD fuel start idx).map (fun p => p.index)
        = List.range' idx (periodLoop trades interval endD fuel start idx).length := by
  intro fuel
  induction fuel with
  | zero =>
    intro start idx
    exact ⟨fun p hp => (by cases hp), rfl⟩
  | succ fuel ih =>
    intro start idx
    by_cases hle : start ≤ endD
    · simp only [periodLoop, if_pos hle]
      by_cases hemp : (trades.filter
          (fun t => decide (start ≤ t.ts) && decide (t.ts < start + interval))).isEmpty
      · rw [if_pos hemp]
        exact ih (start + interval) idx
      · rw [if_neg hemp]
        constructor
        · intro p hp
          rcases List.mem_cons.mp hp with h5 | htail
          · rw [h5]
            have hne : trades.filter
                (fun t => decide (start ≤ t.ts) && decide (t.ts < start + interval)) ≠ [] := by
              intro hnil
              exact hemp (by rw [hnil]; rfl)
            exact ⟨hne, rfl⟩
          · exact (ih (start + interval) (idx + 1)).1 p htail
        · simp only [List.map_cons, List.length_cons]
          rw [(ih (start + interval) (idx + 1)).2]
          rfl
    · simp only [periodLoop, if_neg hle]
      exact ⟨fun p hp => (by cases hp), rfl⟩

/-- C7: for every trade sequence and period configuration with a positive
multiplier, every emitted period is nonempty (empty windows are skipped),
holds exactly the trades with timestamp in `[startDate, endDate)`, and the
emitted periods carry consecutive 1-based indices. -/
theorem periods_spec (trades : List Trade) (u : PeriodUnit) (len : Nat)
    (_hlen : 0 < len) (ps : List Period)
    (h : calculatePeriods trades u len = some ps) :
    (∀ p ∈ ps, p.trades ≠ [] ∧
      p.trades = trades.filter
        (fun t => decide (p.startDate ≤ t.ts) && decide (t.ts < p.endDate))) ∧
    ps.map (fun p => p.index) = List.range' 1 ps.length := by
  cases trades with
  | nil => cases h
  | cons t0 rest =>
    simp only [calculatePeriods, Option.some.injEq] at h
    rw [← h]
    exact periodLoop_spec (t0 :: rest) (intervalMs u len)
      ((t0 :: rest).getLast (by simp)).ts _ t0.ts 1

/-- Witness for C7 at the two-trade input `tr7` with one-day windows: the
empty middle window is omitted and the emitted indices are 1, 2. -/
theorem periods_spec_witness :
    0 < 1 ∧
    ([⟨1, 0, 86400000, [⟨0, [("pnl", 1)]⟩]⟩,
      ⟨2, 172800000, 259200000, [⟨2 * 86400000, [("pnl", 2)]⟩]⟩] : List Period).map
        (fun p => p.index)
      = List.range' 1 ([⟨1, 0, 86400000, [⟨0, [("pnl", 1)]⟩]⟩,
          ⟨2, 172800000, 259200000, [⟨2 * 86400000, [("pnl", 2)]⟩]⟩] : List Period).length :=
  ⟨by decide,
    (periods_spec tr7 .day 1 (by decide)
      [⟨1, 0, 86400000, [⟨0, [("pnl", 1)]⟩]⟩,
       ⟨2, 172800000, 259200000, [⟨2 * 86400000, [("pnl", 2)]⟩]⟩] (by decide)).2⟩

/-- The fold of `min` never exceeds its seed. -/
theorem foldl_min_le_init (l : List ℚ) : ∀ a : ℚ, l.foldl min a ≤ a := by
  induction l with
  | nil => intro a; exact le_refl a
  | cons y t ih =>
    intro a
    calc (y :: t).foldl min a = t.foldl min (min a y) := rfl
      _ ≤ min a y := ih (min a y)
      _ ≤ a := min_le_left a y

/-- The fold of `min` over a list bounds every element from below. -/
theorem foldl_min_le (l : List ℚ) : ∀ (a x : ℚ), x ∈ l → l.foldl min a ≤ x := by
  induction l with
  | nil => intro a x hx; cases hx
  | cons y t ih =>
    intro a x hx
    rcases List.mem_cons.mp hx with h5 | htail
    · calc (y :: t).foldl min a = t.foldl min (min a y) := rfl
        _ ≤ min a y := foldl_min_le_init t (min a y)
        _ ≤ y := min_le_right a y
        _ = x := h5.symm
    · exact ih (min a y) x htail

/-- The fold of `max` is at least its seed. -/
theorem le_foldl_max_init (l : List ℚ) : ∀ a : ℚ, a ≤ l.foldl max a := by
  induction l with
  | nil => intro a; exact le_refl a
  | cons y t ih =>
    intro a
    calc a ≤ max a y := le_max_left a y
      _ ≤ t.foldl max (max a y) := ih (max a y)
      _ = (y :: t).foldl max a := rfl

/-- The fold of `max` over a list bounds every element from above. -/
theorem le_foldl_max (l : List ℚ) : ∀ (a x : ℚ), x ∈ l → x ≤ l.foldl max a := by
  induction l with
  | nil => intro a x hx; cases hx
  | cons y t ih =>
    intro a x hx
    rcases List.mem_cons.mp hx with h5 | htail
    · calc x = y := h5
        _ ≤ max a y := le_max_right a y
        _ ≤ t.foldl max (max a y) := le_foldl_max_init t (max a y)
        _ = (y :: t).foldl max a := rfl
    · exact ih (max a y) x htail

/-- Over the index range, the indicator of a fixed index sums to one. -/
theorem sum_indicator_range (k : Nat) : ∀ m : Nat, k < m →
    ((List.range m).map (fun j => if k = j then 1 else 0)).sum = 1 := by
  intro m
  induction m with
  | zero => intro h; omega
  | succ m ih =>
    intro h
    rw [List.range_succ, List.map_append, List.sum_append]
    by_cases hk : k = m
    · have h0 : ((List.range m).map (fun j => if k = j then 1 else 0)).sum = 0 := by
        apply List.sum_eq_zero
        intro x hx
        obtain ⟨j, hj, hxj⟩ := List.mem_map.mp hx
        have hjm : j < m := List.mem_range.mp hj
        rw [← hxj, if_neg (by omega)]
      rw [h0]
      simp [hk]
    · have hk2 : k < m := by omega
      rw [ih hk2]
      simp [hk]

/-- Assigning each sample value a bucket below `m` and counting per
bucket over the range partitions the sample: the counts sum to its size. -/
theorem sum_bucket_counts (f : ℚ → Nat) (m : Nat) :
    ∀ l : List ℚ, (∀ v ∈ l, f v < m) →
      ((List.range m).map (fun j => (l.filter (fun v => f v == j)).length)).sum
        = l.length := by
  intro l
  induction l with
  | nil =>
    intro _
    apply List.sum_eq_zero
    intro x hx
    obtain ⟨j, _, hxj⟩ := List.mem_map.mp hx
    rw [← hxj, List.filter_nil]
    rfl
  | cons v t ih =>
    intro h
    have hv : f v < m := h v (List.mem_cons_self v t)
    have ht : ∀ x ∈ t, f x < m := fun x hx => h x (List.mem_cons_of_mem v hx)
    have heach : ∀ j ∈ List.range m,
        (fun j => ((v :: t).filter (fun x => f x == j)).length) j
          = (fun j => (t.filter (fun x => f x == j)).length + (if f v = j then 1 else 0)) j := by
      intro j _
      by_cases hj : f v = j
      · simp [List.filter_cons, hj]
      · simp [List.filter_cons, hj]
    rw [List.map_congr_left heach, List.sum_map_add, ih ht, sum_indicator_range (f v) m hv]
    rfl

/-- The clamped bin index always lands inside a nonempty bin array. -/
theorem assignBinIdx_lt (mean stdDev minStdDev binSize : ℚ) (numBins : Nat)
    (hn : 0 < numBins) (v : ℚ) :
    assignBinIdx mean stdDev minStdDev binSize numBins v < numBins := by
  simp only [assignBinIdx]
  split_ifs with h1 h2 <;> omega

/-- The bin array spans from the floored minimum to the ceiled maximum
offset, so it holds at least one bin. -/
theorem numBins_pos (s binSize lo hi : ℚ) (hs0 : 0 < s) (hb : 0 < binSize)
    (hlohi : lo ≤ hi) :
    0 < (⌊((⌈hi / s / binSize⌉ : ℚ) * binSize
          - (⌊lo / s / binSize⌋ : ℚ) * binSize) / binSize⌋ + 1).toNat := by
  have h1 : (⌊lo / s / binSize⌋ : ℚ) * binSize ≤ lo / s := by
    calc (⌊lo / s / binSize⌋ : ℚ) * binSize
        ≤ (lo / s / binSize) * binSize :=
          mul_le_mul_of_nonneg_right (Int.floor_le _) hb.le
      _ = lo / s := div_mul_cancel₀ _ (ne_of_gt hb)
  have h2 : hi / s ≤ (⌈hi / s / binSize⌉ : ℚ) * binSize := by
    calc hi / s = (hi / s / binSize) * binSize := (div_mul_cancel₀ _ (ne_of_gt hb)).symm
      _ ≤ (⌈hi / s / binSize⌉ : ℚ) * binSize :=
          mul_le_mul_of_nonneg_right (Int.le_ceil _) hb.le
  have h3 : lo / s ≤ hi / s := by gcongr
  have h4 : (0 : ℚ) ≤ ((⌈hi / s / binSize⌉ : ℚ) * binSize
      - (⌊lo / s / binSize⌋ : ℚ) * binSize) / binSize :=
    div_nonneg (by linarith) hb.le
  have h6 : 0 ≤ ⌊((⌈hi / s / binSize⌉ : ℚ) * binSize
      - (⌊lo / s / binSize⌋ : ℚ) * binSize) / binSize⌋ := Int.floor_nonneg.mpr h4
  omega

/-- For any nonempty bin array the histogram block partitions the sample
into the bins and returns them sorted by center. -/
theorem bins_block_spec (mean s minS binSize : ℚ) (numBins : Nat)
    (sample : List ℚ) (hn : 0 < numBins) :
    (((List.insertionSort (fun a b => a.binCenter ≤ b.binCenter)
        ((List.range numBins).map (mkBin mean s minS binSize numBins sample))).map
      (fun b => b.count)).sum = sample.length) ∧
    (List.insertionSort (fun a b => a.binCenter ≤ b.binCenter)
        ((List.range numBins).map (mkBin mean s minS binSize numBins sample))).Pairwise
      (fun a b => a.binCenter ≤ b.binCenter) := by
  constructor
  · have hperm : ((List.insertionSort (fun a b => a.binCenter ≤ b.binCenter)
        ((List.range numBins).map (mkBin mean s minS binSize numBins sample))).map
          (fun b => b.count)).Perm
        (((List.range numBins).map (mkBin mean s minS binSize numBins sample)).map
          (fun b => b.count)) :=
      (List.perm_insertionSort _ _).map _
    rw [hperm.sum_eq, List.map_map]
    have hfun : ((fun b : DistBin => b.count) ∘ mkBin mean s minS binSize numBins sample)
        = fun j => (sample.filter
            (fun v => assignBinIdx mean s minS binSize numBins v == j)).length := rfl
    rw [hfun]
    exact sum_bucket_counts _ numBins sample
      (fun v _ => assignBinIdx_lt mean s minS binSize numBins hn v)
  · exact List.sorted_insertionSort _ _

/-- C8: for every nonempty sample, positive collapse threshold and
positive bin width, the histogram assigns every sample value to exactly
one bin, so the bin counts sum to the sample size, and the bins come back
sorted by center ascending. -/
theorem distribution_bins_spec (eps binSize : ℚ) (sqrtFn : ℚ → ℚ)
    (sample : List ℚ) (heps : 0 < eps) (hb : 0 < binSize) (hs : sample ≠ []) :
    ((binSample eps binSize sqrtFn sample).map (fun b => b.count)).sum = sample.length ∧
    (binSample eps binSize sqrtFn sample).Pairwise
      (fun a b => a.binCenter ≤ b.binCenter) := by
  cases sample with
  | nil => exact absurd rfl hs
  | cons v0 rest =>
    simp only [binSample]
    split_ifs with hsd
    · exact ⟨by simp, List.pairwise_singleton _ _⟩
    · apply bins_block_spec
      apply numBins_pos
      · exact lt_of_lt_of_le heps (not_lt.mp hsd)
      · exact hb
      · have h1 : (v0 :: rest).foldl min v0 ≤ v0 := foldl_min_le_init (v0 :: rest) v0
        have h2 : v0 ≤ (v0 :: rest).foldl max v0 := le_foldl_max_init (v0 :: rest) v0
        linarith

/-- Witness for C8 at the sample 0, 1 with bin width one standard
deviation and the P&L collapse threshold. -/
theorem distribution_bins_spec_witness :
    (0 : ℚ) < 1 / 1000000 ∧ (0 : ℚ) < 1 ∧ ([0, 1] : List ℚ) ≠ [] ∧
    ((binSample (1 / 1000000) 1 idSqrt [0, 1]).map (fun b => b.count)).sum = 2 ∧
    (binSample (1 / 1000000) 1 idSqrt [0, 1]).Pairwise
      (fun a b => a.binCenter ≤ b.binCenter) :=
  ⟨by norm_num, by norm_num, by decide,
    (distribution_bins_spec (1 / 1000000) 1 idSqrt [0, 1]
      (by norm_num) (by norm_num) (by decide)).1,
    (distribution_bins_spec (1 / 1000000) 1 idSqrt [0, 1]
      (by norm_num) (by norm_num) (by decide)).2⟩

/-- The fuel bound is exact: for a positive interval, any two sufficient
fuels produce the same window walk, so the fuel rendering coincides with
the source's unbounded `while` loop. -/
theorem periodLoop_fuel (trades : List Trade) (interval endD : Int)
    (hpos : 0 < interval) :
    ∀ (f f' : Nat) (start : Int) (idx : Nat),
      (endD + 1 - start).toNat ≤ f → (endD + 1 - start).toNat ≤ f' →
      periodLoop trades interval endD f start idx
        = periodLoop trades interval endD f' start idx := by
  intro f
  induction f with
  | zero =>
    intro f' start idx hf hf'
    have hle : ¬ start ≤ endD := by omega
    cases f' with
    | zero => rfl
    | succ f' => simp only [periodLoop, if_neg hle]
  | succ f ihf =>
    intro f' start idx hf hf'
    cases f' with
    | zero =>
      have hle : ¬ start ≤ endD := by omega
      simp only [periodLoop, if_neg hle]
    | succ f' =>
      by_cases hle : start ≤ endD
      · have hb1 : (endD + 1 - (start + interval)).toNat ≤ f := by omega
        have hb2 : (endD + 1 - (start + interval)).toNat ≤ f' := by omega
        simp only [periodLoop, if_pos hle]
        rw [ihf f' (start + interval) idx hb1 hb2,
            ihf f' (start + interval) (idx + 1) hb1 hb2]
      · simp only [periodLoop, if_neg hle]

end TVQB
